import Mathlib

/-!
Verification development for two components of an online-course platform:

* `xmodule/randomize_module.py` — an XBlock-style module that picks a
  pseudo-random child unit per student, with history / suspension
  bookkeeping (`RandomizeModule`).
* `courseware/management/commands/dump_to_neo4j.py` — a management command
  that serializes the course modulestore into graph nodes and
  relationships and writes them to a graph database, one transaction per
  course.

The Python code is embedded shallowly: each method becomes an executable
Lean function over explicit state; Python `OrderedDict`s become
association lists built with an insertion function that mirrors
`OrderedDict` assignment semantics (duplicate key keeps its original
position, value overwritten); exceptions become `Except` / `Option`
results.
-/

/- ### Ordered dictionaries (Python `OrderedDict` / `dict` as association lists) -/

/-- `OrderedDict` assignment `d[k] = v`: if `k` is already a key its value is
replaced in place, otherwise the pair is appended at the end. -/
def odInsert {κ α : Type} [DecidableEq κ] (d : List (κ × α)) (k : κ) (v : α) :
    List (κ × α) :=
  if k ∈ d.map Prod.fst then d.map (fun p => if p.1 = k then (k, v) else p)
  else d ++ [(k, v)]

/-- `OrderedDict(pairs)`: insert the pairs left to right into an empty dict. -/
def odFromList {κ α : Type} [DecidableEq κ] (l : List (κ × α)) : List (κ × α) :=
  l.foldl (fun d p => odInsert d p.1 p.2) []

/-- `d.get(k)` for a present key / `d[k]` lookup: first pair with key `k`. -/
def odFind {κ α : Type} [DecidableEq κ] (d : List (κ × α)) (k : κ) : Option α :=
  (d.find? (fun p => decide (p.1 = k))).map Prod.snd

/-- `d.get(k)` where `k` itself may be `None` (then no key matches). -/
def odGet {κ α : Type} [DecidableEq κ] (d : List (κ × α)) : Option κ → Option α
  | none => none
  | some k => odFind d k

/-- `k in d` membership test on the dictionary keys. -/
def odHasKey {κ α : Type} [DecidableEq κ] (d : List (κ × α)) (k : κ) : Bool :=
  decide (k ∈ d.map Prod.fst)

/- ### The randomize module -/

/-- A child block's location: its url (`location.url()`) and its name
(`location.name`). -/
structure ChildLocation where
  url : String
  name : String
deriving DecidableEq

/-- A child descriptor of the randomize module. -/
structure Child where
  location : ChildLocation
deriving DecidableEq

/-- Static data of a `RandomizeModule` instance: the descriptor's children,
the runtime seed (`self.system.seed`, possibly `None`) and the staff flag
(`self.system.user_is_staff` / `self.runtime.user_is_staff`). -/
structure RModule where
  children : List Child
  seed : Option Nat
  userIsStaff : Bool
deriving DecidableEq

/-- The per-student mutable fields of `RandomizeFields`: the stored `choice`
(a location url or `None`) and the `history` list of seen urls. -/
structure ModState where
  choice : Option String
  history : List String
deriving DecidableEq

/-- `RandomizeModule.get_choices(no_repeats, suspended)`: the descriptor's
children, filtered by history when the stored choice is `None` and
`no_repeats` holds, filtered by the suspended names when `suspended` is a
non-empty (truthy) list, and keyed by location url in an `OrderedDict`. -/
def get_choices (m : RModule) (st : ModState) (no_repeats : Bool)
    (suspended : List String) : List (String × Child) :=
  let cs1 :=
    if st.choice = none ∧ no_repeats = true then
      m.children.filter (fun c => decide (c.location.url ∉ st.history))
    else m.children
  let cs2 :=
    if suspended ≠ [] then
      cs1.filter (fun c => decide (c.location.name ∉ suspended))
    else cs1
  odFromList (cs2.map (fun c => (c.location.url, c)))

/-- The reset step at the top of `RandomizeModule.pick_choice`: when the
stored choice denotes an existing child (`current_child`), is no longer
among the filtered choices, and that child's name is not suspended, the
stored choice is reset to `None`; otherwise it is kept. -/
def reset_choice (choices all_choices : List (String × Child))
    (stChoice : Option String) (suspended : List String) : Option String :=
  match odGet all_choices stChoice, stChoice with
  | some current_child, some ch =>
    if odHasKey choices ch then stChoice
    else if current_child.location.name ∈ suspended then stChoice
    else none
  | _, _ => stChoice

/-- Result of `pick_choice`: the updated per-student state and the
`child_descriptor` / `child` attributes it sets. -/
structure PickResult where
  state : ModState
  child_descriptor : Option Child
  child : Option Child
deriving DecidableEq

/-- `RandomizeModule.pick_choice(use_randrange, no_repeats, suspended)`.
`randPick` stands for `random.choice` on the key list (only consulted when
the seed is `None` or `use_randrange` is set).  The `Except.error` case is
the `Exception` raised when `get_children()` does not return exactly one
element (the chosen key has no child among `all_choices`); the error carries
the state as assigned before the raise. -/
def pick_choice (m : RModule) (st : ModState) (use_randrange no_repeats : Bool)
    (suspended : List String) (randPick : List String → String) :
    Except (String × ModState) PickResult :=
  let choices := get_choices m st no_repeats suspended
  let all_choices := get_choices m st false []
  let choice1 := reset_choice choices all_choices st.choice suspended
  let choice2 : Option String :=
    match choice1 with
    | some c => some c
    | none =>
      let num_choices := choices.length
      if 0 < num_choices then
        let keys := choices.map Prod.fst
        match m.seed with
        | some s => if use_randrange then some (randPick keys)
                    else keys.get? (s % num_choices)
        | none => some (randPick keys)
      else
        st.history.getLast?
  match choice2 with
  | none => Except.ok ⟨⟨none, st.history⟩, none, none⟩
  | some ch =>
    match odFind all_choices ch with
    | some cd => Except.ok ⟨⟨some ch, st.history⟩, some cd, some cd⟩
    | none =>
      Except.error ("self.get_children() returned 0 elements", ⟨some ch, st.history⟩)

/-- The stored choice after `pick_choice`, whether it returned normally or
raised (the assignment to `self.choice` happens before the raise). -/
def pickFinalChoice (r : Except (String × ModState) PickResult) : Option String :=
  match r with
  | Except.ok p => p.state.choice
  | Except.error e => e.2.choice

/-- `RandomizeModule.get_child_descriptors`: the chosen child, or nothing. -/
def get_child_descriptors (child_descriptor : Option Child) : List Child :=
  match child_descriptor with
  | none => []
  | some cd => [cd]

/-- `RandomizeModule.student_view(context)`: returns the fragment content and
the updated history.  `renderChild` stands for the child's own
`render('student_view')` content and `controlHtml` for the rendered staff
control template. -/
def student_view (child : Option Child) (history : List String)
    (userIsStaff : Bool) (renderChild : Child → String) (controlHtml : String) :
    String × List String :=
  match child with
  | none => ("<div>Nothing to randomize between</div>", history)
  | some c =>
    let child_loc := c.location.url
    let history2 := if child_loc ∈ history then history else history ++ [child_loc]
    let child_html := renderChild c
    if userIsStaff then
      ("<html>" ++ controlHtml ++ child_html ++ "</html>", history2)
    else (child_html, history2)

/-- `RandomizeModule.get_choice_index(choices=keys)`: `choices.index(choice)`
on the stored choice; a `None` or absent choice raises `ValueError`
(`Except.error`). -/
def get_choice_index (stChoice : Option String) (choices : List String) :
    Except Unit Nat :=
  match stChoice with
  | none => Except.error ()
  | some c =>
    match choices.findIdx? (fun k => k == c) with
    | some i => Except.ok i
    | none => Except.error ()

/-- Python `int(s)`: optional surrounding whitespace, optional sign, decimal
digits; anything else raises `ValueError` (`none`). -/
def pyToInt (s : String) : Option Int :=
  let t := s.trim
  let core := if t.startsWith "-" ∨ t.startsWith "+" then t.drop 1 else t
  if core ≠ "" ∧ core.all (fun c => c.isDigit) then
    let n : Nat := core.foldl (fun acc c => acc * 10 + (c.toNat - 48)) 0
    if t.startsWith "-" then some (-(n : Int)) else some (n : Int)
  else none

/-- Python list indexing `l[i]`: nonnegative indices from the front, negative
indices from the back, `IndexError` (`none`) when out of range. -/
def pyListGet {α : Type} (l : List α) (i : Int) : Option α :=
  if 0 ≤ i then l.get? i.toNat
  else if i.natAbs ≤ l.length then l.get? (l.length - i.natAbs)
  else none

/-- `"%s" % choice` for the stored choice. -/
def pyShowOptStr : Option String → String
  | none => "None"
  | some s => s

/-- `RandomizeModule.handle_ajax(dispatch, data)`.  `dataChoice` is the value
of `data['choice']`.  The result string is the `'ret'` field of the returned
JSON object.  The `ValueError` raised by `get_choice_index` when the stored
choice is not among the keys is not caught and propagates
(`Except.error`). -/
def handle_ajax (m : RModule) (st : ModState) (dispatch : String)
    (dataChoice : String) : Except Unit (ModState × String) :=
  if m.userIsStaff then
    let choices := (get_choices m st false []).map Prod.fst
    match get_choice_index st.choice choices with
    | Except.error e => Except.error e
    | Except.ok index =>
      let newChoice :=
        if dispatch = "next" then
          match choices.get? (index + 1) with
          | some k => some k
          | none => st.choice
        else if dispatch = "jump" then
          match pyToInt dataChoice with
          | some i =>
            match pyListGet choices i with
            | some k => some k
            | none => st.choice
          | none => st.choice
        else st.choice
      Except.ok (⟨newChoice, st.history⟩, "choice=" ++ pyShowOptStr newChoice)
  else
    Except.ok (st, "choice=" ++ pyShowOptStr st.choice)

/- ### The dump_to_neo4j management command -/

/-- A Python value of an XBlock field, as classified by `coerce_types`:
the primitive neo4j types (`integer`, `string`/`unicode`, `float`, `bool`),
the iterable neo4j types (`tuple`, `list`, `set`, `frozenset`), and any
other object (carried with its unicode rendering). Floats are carried by
their printed form, which `coerce_types` never inspects. -/
inductive Value where
  | VInt : Int → Value
  | VStr : String → Value
  | VFloat : String → Value
  | VBool : Bool → Value
  | VTuple : List Value → Value
  | VList : List Value → Value
  | VSet : List Value → Value
  | VFrozenset : List Value → Value
  | VOther : String → Value

/-- Concatenate rendered elements with `", "`. -/
def joinStrings : List String → String
  | [] => ""
  | [s] => s
  | s :: rest => s ++ ", " ++ joinStrings rest

/-- Python `unicode(value)`: a unicode string is returned as itself; other
values are rendered to a string.  The exact rendering of non-string values
is irrelevant to `coerce_types`, which only relies on strings rendering to
themselves. -/
def pyUnicode : Value → String
  | .VInt i => toString i
  | .VStr s => s
  | .VFloat f => f
  | .VBool b => if b then "True" else "False"
  | .VOther s => s
  | .VTuple l => "(" ++ joinStrings (l.attach.map (fun vh => pyUnicode vh.1)) ++ ")"
  | .VList l => "[" ++ joinStrings (l.attach.map (fun vh => pyUnicode vh.1)) ++ "]"
  | .VSet l => "set([" ++ joinStrings (l.attach.map (fun vh => pyUnicode vh.1)) ++ "])"
  | .VFrozenset l =>
      "frozenset([" ++ joinStrings (l.attach.map (fun vh => pyUnicode vh.1)) ++ "])"
termination_by v => sizeOf v
decreasing_by
  all_goals
    have h := List.sizeOf_lt_of_mem vh.2
    simp only [Value.VTuple.sizeOf_spec, Value.VList.sizeOf_spec,
      Value.VSet.sizeOf_spec, Value.VFrozenset.sizeOf_spec]
    omega

/-- `ModuleStoreSerializer.coerce_types(value)`: iterable neo4j types are
rebuilt with every element converted to unicode (`type(value)(...)`; for
`set` / `frozenset` the rebuild removes duplicates), primitive neo4j types
pass through unchanged, anything else becomes `unicode(value)`. -/
def coerce_types : Value → Value
  | .VTuple l => .VTuple (l.map (fun e => Value.VStr (pyUnicode e)))
  | .VList l => .VList (l.map (fun e => Value.VStr (pyUnicode e)))
  | .VSet l => .VSet ((List.dedup (l.map pyUnicode)).map Value.VStr)
  | .VFrozenset l => .VFrozenset ((List.dedup (l.map pyUnicode)).map Value.VStr)
  | .VInt i => .VInt i
  | .VStr s => .VStr s
  | .VFloat f => .VFloat f
  | .VBool b => .VBool b
  | .VOther s => .VStr (pyUnicode (.VOther s))

/-- An XBlock item as returned by `modulestore().get_items(course_id)`:
its raw field dictionary, the attributes `serialize_item` reads, its block
type, its location (as an opaque key string) and the locations of its
children (`item.get_children()` / `.location`). -/
structure Item where
  fields : List (String × Value)
  edited_on : String
  display_name_with_default : String
  org : String
  course : String
  run : String
  course_key : String
  block_type : String
  location : String
  childLocs : List String

/-- Delete a key from a dictionary (`del fields['checklists']`, guarded by a
membership test in the source, so deleting an absent key never happens). -/
def odErase {κ α : Type} [DecidableEq κ] (d : List (κ × α)) (k : κ) :
    List (κ × α) :=
  d.filter (fun p => decide (p.1 ≠ k))

/-- `ModuleStoreSerializer.serialize_item(item)`: the field dictionary
without `parent` and `children`, with the defaults set or reset, with
`checklists` pruned on `course` items; paired with the block-type label. -/
def serialize_item (item : Item) : List (String × Value) × String :=
  let fields := odFromList
    (item.fields.filter (fun p => decide (p.1 ≠ "parent" ∧ p.1 ≠ "children")))
  let fields := odInsert fields "edited_on" (Value.VStr item.edited_on)
  let fields := odInsert fields "display_name" (Value.VStr item.display_name_with_default)
  let fields := odInsert fields "org" (Value.VStr item.org)
  let fields := odInsert fields "course" (Value.VStr item.course)
  let fields := odInsert fields "run" (Value.VStr item.run)
  let fields := odInsert fields "course_key" (Value.VStr item.course_key)
  let label := item.block_type
  let fields := if label = "course" then odErase fields "checklists" else fields
  (fields, label)

/-- A py2neo `Node`: a label and a property dictionary. -/
structure GNode where
  label : String
  props : List (String × Value)

/-- A py2neo `Relationship` between two nodes. -/
structure GRel where
  parent : GNode
  rtype : String
  child : GNode

/-- The node built for one item inside `serialize_course`'s first loop:
`Node(label, **fields)` after `coerce_types` was applied to every field
value. -/
def mkNode (item : Item) : GNode :=
  let fl := serialize_item item
  ⟨fl.2, fl.1.map (fun p => (p.1, coerce_types p.2))⟩

/-- `ModuleStoreSerializer.serialize_course(course_id)`: one node per item
(recording each in the `location_to_node` dictionary), then one
`PARENT_OF` relationship per parent-child pair whose two locations are both
in that dictionary. -/
def serialize_course (items : List Item) : List GNode × List GRel :=
  let start : List GNode × List (String × GNode) := ([], [])
  let built := items.foldl
    (fun acc item =>
      let node := mkNode item
      (acc.1 ++ [node], odInsert acc.2 item.location node))
    start
  let nodes := built.1
  let location_to_node := built.2
  let relationships := items.foldl
    (fun acc item =>
      acc ++ item.childLocs.filterMap (fun child_loc =>
        match odFind location_to_node item.location,
              odFind location_to_node child_loc with
        | some parent_node, some child_node =>
          some ⟨parent_node, "PARENT_OF", child_node⟩
        | _, _ => none))
    []
  (nodes, relationships)

/-- The node of the first serialized item at a given location (the canonical
description of `location_to_node` lookups when locations are distinct). -/
def findNode (items : List Item) (loc : String) : Option GNode :=
  (items.find? (fun it => decide (it.location = loc))).map mkNode

/-- A graph entity: a node or a relationship. -/
inductive Entity where
  | node : GNode → Entity
  | rel : GRel → Entity

/-- The entities of one course, nodes first then relationships, in the order
`Command.handle` creates them. -/
def courseEntities (items : List Item) : List Entity :=
  (serialize_course items).1.map Entity.node ++
    (serialize_course items).2.map Entity.rel

/-- `Command.add_to_transaction(neo4j_entities, transaction)`: create each
entity in the transaction buffer; `f` tells which create raises
(`none` = an exception escaped, aborting the remaining creates). -/
def add_to_transaction (entities : List Entity) (f : Entity → Bool)
    (tx : List Entity) : Option (List Entity) :=
  match entities with
  | [] => some tx
  | e :: rest => if f e then none else add_to_transaction rest f (tx ++ [e])

/-- One iteration of `Command.handle`'s course loop: serialize the course,
open a transaction, create nodes then relationships, commit; on any raise
from a create or from the commit (`commitOk = false`), roll back, leaving
the committed graph unchanged. -/
def writeCourse (graph : List Entity) (items : List Item) (f : Entity → Bool)
    (commitOk : Bool) : List Entity :=
  let sc := serialize_course items
  match add_to_transaction (sc.1.map Entity.node) f [] with
  | none => graph
  | some tx1 =>
    match add_to_transaction (sc.2.map Entity.rel) f tx1 with
    | none => graph
    | some tx2 => if commitOk then graph ++ tx2 else graph

/-- The course loop of `Command.handle`: each course is written with its own
transaction; `F i` gives the create-failure oracle and commit outcome for
the `i`-th course. -/
def handleLoop (graph : List Entity) (courses : List (List Item))
    (F : Nat → (Entity → Bool) × Bool) (i : Nat) : List Entity :=
  match courses with
  | [] => graph
  | c :: rest => handleLoop (writeCourse graph c (F i).1 (F i).2) rest F (i + 1)

/-- `Command.handle`: `graph.delete_all()` empties the graph, then every
course is written in turn.  The result is the committed graph content. -/
def handle (courses : List (List Item)) (F : Nat → (Entity → Bool) × Bool) :
    List Entity :=
  handleLoop [] courses F 0

/-- Operations `Command.handle` issues against the graph database. -/
inductive Op where
  | deleteAll : Op
  | begin : Op
  | create : Entity → Op
  | commit : Op
  | rollback : Op

/-- The create operations issued for a list of entities, and whether all of
them succeeded (a failing create issues no operation and aborts the rest). -/
def createOps (entities : List Entity) (f : Entity → Bool) : List Op × Bool :=
  match entities with
  | [] => ([], true)
  | e :: rest =>
    if f e then ([], false)
    else
      let r := createOps rest f
      (Op.create e :: r.1, r.2)

/-- The operation trace of one course iteration: begin, the creates (nodes
then relationships), then commit on success or rollback on failure. -/
def courseOps (items : List Item) (f : Entity → Bool) (commitOk : Bool) :
    List Op :=
  let sc := serialize_course items
  let r1 := createOps (sc.1.map Entity.node) f
  if r1.2 = false then Op.begin :: r1.1 ++ [Op.rollback]
  else
    let r2 := createOps (sc.2.map Entity.rel) f
    if r2.2 = false then Op.begin :: r1.1 ++ r2.1 ++ [Op.rollback]
    else if commitOk then Op.begin :: r1.1 ++ r2.1 ++ [Op.commit]
    else Op.begin :: r1.1 ++ r2.1 ++ [Op.commit, Op.rollback]

/-- The traces of the course loop, concatenated. -/
def handleOpsLoop (courses : List (List Item)) (F : Nat → (Entity → Bool) × Bool)
    (i : Nat) : List Op :=
  match courses with
  | [] => []
  | c :: rest => courseOps c (F i).1 (F i).2 ++ handleOpsLoop rest F (i + 1)

/-- The full operation trace of `Command.handle`: the single
`graph.delete_all()`, then the per-course transactions. -/
def handleOps (courses : List (List Item)) (F : Nat → (Entity → Bool) × Bool) :
    List Op :=
  Op.deleteAll :: handleOpsLoop courses F 0

/- ### Lemmas about ordered dictionaries -/

theorem odInsert_keys_mem {κ α : Type} [DecidableEq κ] (d : List (κ × α))
    (k x : κ) (v : α) :
    x ∈ (odInsert d k v).map Prod.fst ↔ x ∈ d.map Prod.fst ∨ x = k := by
  unfold odInsert
  by_cases hk : k ∈ d.map Prod.fst
  · simp only [hk, if_pos, List.map_map]
    have he : (Prod.fst ∘ fun p : κ × α => if p.1 = k then (k, v) else p) =
        Prod.fst := by
      funext p
      by_cases hp : p.1 = k <;> simp [hp]
    rw [he]
    constructor
    · exact fun h => Or.inl h
    · rintro (h | rfl)
      · exact h
      · exact hk
  · simp only [hk, if_neg, not_false_iff, List.map_append, List.mem_append,
      List.map_cons, List.map_nil, List.mem_cons, List.not_mem_nil, or_false]

theorem odInsert_mem_sub {κ α : Type} [DecidableEq κ] {d : List (κ × α)}
    {k : κ} {v : α} {q : κ × α} (h : q ∈ odInsert d k v) :
    q ∈ d ∨ q = (k, v) := by
  unfold odInsert at h
  split at h
  · obtain ⟨p, hp, hpe⟩ := List.mem_map.1 h
    by_cases hpk : p.1 = k
    · right
      rw [if_pos hpk] at hpe
      exact hpe.symm
    · left
      rw [if_neg hpk] at hpe
      exact hpe ▸ hp
  · rcases List.mem_append.1 h with h1 | h1
    · exact Or.inl h1
    · right
      simpa using h1

theorem odFromList_keys_mem {κ α : Type} [DecidableEq κ] (l : List (κ × α))
    (x : κ) :
    x ∈ (odFromList l).map Prod.fst ↔ x ∈ l.map Prod.fst := by
  suffices h : ∀ d : List (κ × α),
      (x ∈ ((l.foldl (fun d p => odInsert d p.1 p.2) d).map Prod.fst) ↔
        x ∈ d.map Prod.fst ∨ x ∈ l.map Prod.fst) by
    simpa [odFromList] using h []
  induction l with
  | nil => simp
  | cons p rest ih =>
    intro d
    rw [List.foldl_cons, ih (odInsert d p.1 p.2)]
    rw [odInsert_keys_mem]
    simp only [List.map_cons, List.mem_cons]
    tauto

theorem odFromList_foldl_mem_sub {κ α : Type} [DecidableEq κ]
    (l : List (κ × α)) :
    ∀ (d : List (κ × α)) (q : κ × α),
      q ∈ l.foldl (fun d p => odInsert d p.1 p.2) d → q ∈ d ∨ q ∈ l := by
  induction l with
  | nil => intro d q h; simpa using h
  | cons p rest ih =>
    intro d q h
    rw [List.foldl_cons] at h
    rcases ih (odInsert d p.1 p.2) q h with h1 | h1
    · rcases odInsert_mem_sub h1 with h2 | h2
      · exact Or.inl h2
      · right
        simp [h2]
    · right
      exact List.mem_cons_of_mem _ h1

theorem odFromList_mem_sub {κ α : Type} [DecidableEq κ] {l : List (κ × α)}
    {q : κ × α} (hq : q ∈ odFromList l) : q ∈ l := by
  rcases odFromList_foldl_mem_sub l [] q hq with h1 | h1
  · simp at h1
  · exact h1

theorem odFromList_foldl_nodup {κ α : Type} [DecidableEq κ]
    (l : List (κ × α)) :
    ∀ d : List (κ × α), (d.map Prod.fst ++ l.map Prod.fst).Nodup →
      l.foldl (fun d p => odInsert d p.1 p.2) d = d ++ l := by
  induction l with
  | nil => intro d _; simp
  | cons p rest ih =>
    intro d hd
    have hp1 : p.1 ∉ d.map Prod.fst := by
      intro hmem
      rcases List.nodup_append.1 (by simpa using hd) with ⟨_, _, hdisj⟩
      exact hdisj hmem (by simp)
    have hins : odInsert d p.1 p.2 = d ++ [p] := by
      unfold odInsert
      rw [if_neg hp1]
    have hd2 : ((d ++ [p]).map Prod.fst ++ rest.map Prod.fst).Nodup := by
      simpa [List.append_assoc] using hd
    rw [List.foldl_cons, hins, ih (d ++ [p]) hd2]
    simp

theorem odFromList_of_nodup {κ α : Type} [DecidableEq κ] (l : List (κ × α))
    (h : (l.map Prod.fst).Nodup) : odFromList l = l := by
  simpa [odFromList] using odFromList_foldl_nodup l [] (by simpa using h)

theorem odFind_isSome_of_mem {κ α : Type} [DecidableEq κ] {d : List (κ × α)}
    {k : κ} (h : k ∈ d.map Prod.fst) : ∃ v, odFind d k = some v := by
  obtain ⟨q, hq, hqk⟩ := List.mem_map.1 h
  have hs : (d.find? (fun p => decide (p.1 = k))).isSome := by
    rw [List.find?_isSome]
    exact ⟨q, hq, by simp [hqk]⟩
  obtain ⟨q2, hq2⟩ := Option.isSome_iff_exists.1 hs
  exact ⟨q2.2, by simp [odFind, hq2]⟩

theorem odFind_mem {κ α : Type} [DecidableEq κ] {d : List (κ × α)} {k : κ}
    {v : α} (h : odFind d k = some v) : (k, v) ∈ d := by
  unfold odFind at h
  obtain ⟨q, hq, hqv⟩ := Option.map_eq_some'.1 h
  have hmem := List.mem_of_find?_eq_some hq
  have hk := List.find?_some hq
  have hk1 : q.1 = k := by simpa using hk
  have hq2 : q = (k, v) := by
    obtain ⟨qa, qb⟩ := q
    simp only [Prod.mk.injEq]
    exact ⟨hk1, hqv⟩
  exact hq2 ▸ hmem

/- ### Lemmas about `get_choices` -/

theorem get_choices_no_args (m : RModule) (st : ModState) :
    get_choices m st false [] =
      odFromList (m.children.map (fun c => (c.location.url, c))) := by
  simp [get_choices]

theorem mem_keys_get_choices (m : RModule) (st : ModState) (nr : Bool)
    (susp : List String) (k : String) :
    k ∈ (get_choices m st nr susp).map Prod.fst ↔
      ∃ c, c ∈ m.children ∧ c.location.url = k ∧
        ((st.choice = none ∧ nr = true) → c.location.url ∉ st.history) ∧
        (susp ≠ [] → c.location.name ∉ susp) := by
  unfold get_choices
  rw [odFromList_keys_mem]
  by_cases h1 : st.choice = none ∧ nr = true <;> by_cases h2 : susp ≠ [] <;>
    simp only [if_pos, if_neg, h1, h2, if_true, if_false] <;>
    simp [List.mem_filter, List.mem_map, h1, h2] <;>
    (constructor <;> rintro ⟨c, hc⟩ <;> exact ⟨c, by tauto⟩)

theorem keys_get_choices_sub_all (m : RModule) (st st2 : ModState) (nr : Bool)
    (susp : List String) (k : String)
    (h : k ∈ (get_choices m st nr susp).map Prod.fst) :
    k ∈ (get_choices m st2 false []).map Prod.fst := by
  rw [mem_keys_get_choices] at h ⊢
  obtain ⟨c, hc, hurl, _, _⟩ := h
  refine ⟨c, hc, hurl, ?_, ?_⟩
  · rintro ⟨_, hfalse⟩
    cases hfalse
  · intro hfalse
    exact absurd rfl hfalse

theorem keys_get_choices_choice_some (m : RModule) (st : ModState) (nr : Bool)
    (susp : List String) (k k0 : String) (h2 : List String)
    (h : k ∈ (get_choices m st nr susp).map Prod.fst) :
    k ∈ (get_choices m ⟨some k0, h2⟩ nr susp).map Prod.fst := by
  rw [mem_keys_get_choices] at h ⊢
  obtain ⟨c, hc, hurl, _, hsusp⟩ := h
  refine ⟨c, hc, hurl, ?_, hsusp⟩
  rintro ⟨hh, _⟩
  simp at hh

theorem reset_choice_of_none (choices all : List (String × Child))
    (susp : List String) : reset_choice choices all none susp = none := rfl

theorem reset_choice_has_key {choices all : List (String × Child)} {ch : String}
    {cc : Child} {susp : List String} (hfind : odFind all ch = some cc)
    (hkey : odHasKey choices ch = true) :
    reset_choice choices all (some ch) susp = some ch := by
  unfold reset_choice
  simp [odGet, hfind, hkey]

/-- C1: with no stored choice, `n > 0` filtered choices, a non-`None` runtime
seed and `use_randrange` off, `pick_choice` succeeds and stores the key at
index `seed % n` of the ordered choice dictionary; and with that stored
choice, any later `pick_choice` (any history, any randomness) returns the
same choice, so the same child is selected on every call for a fixed seed
and fixed child list. -/
theorem pick_choice_seeded (m : RModule) (st : ModState) (no_repeats : Bool)
    (suspended : List String) (randPick : List String → String) (s : Nat)
    (hchoice : st.choice = none) (hseed : m.seed = some s)
    (hn : 0 < (get_choices m st no_repeats suspended).length) :
    ∃ r : PickResult,
      pick_choice m st false no_repeats suspended randPick = Except.ok r ∧
      r.state.choice =
        ((get_choices m st no_repeats suspended).map Prod.fst).get?
          (s % (get_choices m st no_repeats suspended).length) ∧
      r.state.history = st.history ∧
      ∀ (h2 : List String) (randPick2 : List String → String),
        ∃ r2 : PickResult,
          pick_choice m ⟨r.state.choice, h2⟩ false no_repeats suspended randPick2
            = Except.ok r2 ∧ r2.state.choice = r.state.choice := by
  have hlt : s % (get_choices m st no_repeats suspended).length <
      (get_choices m st no_repeats suspended).length := Nat.mod_lt _ hn
  have hlt2 : s % (get_choices m st no_repeats suspended).length <
      ((get_choices m st no_repeats suspended).map Prod.fst).length := by
    simpa using hlt
  have hk := List.get?_eq_get hlt2
  set k := ((get_choices m st no_repeats suspended).map Prod.fst).get
    ⟨s % (get_choices m st no_repeats suspended).length, hlt2⟩ with hkdef
  have hkmem : k ∈ (get_choices m st no_repeats suspended).map Prod.fst :=
    List.get_mem _ _ hlt2
  have hkall : k ∈ (get_choices m st false []).map Prod.fst :=
    keys_get_choices_sub_all m st st no_repeats suspended k hkmem
  obtain ⟨cd, hcd⟩ := odFind_isSome_of_mem hkall
  refine ⟨⟨⟨some k, st.history⟩, some cd, some cd⟩, ?_, by simpa using hk.symm,
    rfl, ?_⟩
  · simp only [pick_choice, hchoice, reset_choice_of_none, hseed, hn, if_true,
      if_pos, Bool.false_eq_true, if_false, hk, hcd]
  · intro h2 randPick2
    have hkmem2 : k ∈ (get_choices m ⟨some k, h2⟩ no_repeats suspended).map
        Prod.fst :=
      keys_get_choices_choice_some m st no_repeats suspended k k h2 hkmem
    have hkey2 : odHasKey (get_choices m ⟨some k, h2⟩ no_repeats suspended) k
        = true := by
      simpa [odHasKey] using hkmem2
    have hall2 : get_choices m ⟨some k, h2⟩ false [] =
        get_choices m st false [] := by
      rw [get_choices_no_args, get_choices_no_args]
    have hfind2 : odFind (get_choices m ⟨some k, h2⟩ false []) k = some cd := by
      rw [hall2]
      exact hcd
    refine ⟨⟨⟨some k, h2⟩, some cd, some cd⟩, ?_, rfl⟩
    simp only [pick_choice]
    rw [reset_choice_has_key hfind2 hkey2]
    simp only [hfind2]

/-- Witness for C1 at a concrete two-child module with seed 5. -/
theorem pick_choice_seeded_witness :
    ∃ r : PickResult,
      pick_choice ⟨[⟨⟨"u1", "n1"⟩⟩, ⟨⟨"u2", "n2"⟩⟩], some 5, false⟩ ⟨none, []⟩
          false false [] (fun _ => "") = Except.ok r ∧
      r.state.choice =
        ((get_choices ⟨[⟨⟨"u1", "n1"⟩⟩, ⟨⟨"u2", "n2"⟩⟩], some 5, false⟩
            ⟨none, []⟩ false []).map Prod.fst).get?
          (5 % (get_choices ⟨[⟨⟨"u1", "n1"⟩⟩, ⟨⟨"u2", "n2"⟩⟩], some 5, false⟩
            ⟨none, []⟩ false []).length) ∧
      r.state.history = [] ∧
      ∀ (h2 : List String) (randPick2 : List String → String),
        ∃ r2 : PickResult,
          pick_choice ⟨[⟨⟨"u1", "n1"⟩⟩, ⟨⟨"u2", "n2"⟩⟩], some 5, false⟩
              ⟨r.state.choice, h2⟩ false false [] randPick2
            = Except.ok r2 ∧ r2.state.choice = r.state.choice :=
  pick_choice_seeded ⟨[⟨⟨"u1", "n1"⟩⟩, ⟨⟨"u2", "n2"⟩⟩], some 5, false⟩
    ⟨none, []⟩ false [] (fun _ => "") 5 rfl rfl (by decide)

theorem reset_choice_suspended_mem {choices all : List (String × Child)}
    {ch : String} {cc : Child} {susp : List String}
    (hfind : odFind all ch = some cc) (hsusp : cc.location.name ∈ susp) :
    reset_choice choices all (some ch) susp = some ch := by
  unfold reset_choice
  by_cases hkey : odHasKey choices ch = true
  · simp [odGet, hfind, hkey]
  · rw [Bool.not_eq_true] at hkey
    simp [odGet, hfind, hkey, hsusp]

/-- C4: `pick_choice` keeps a stored non-`None` choice that is still a key of
the filtered choices, keeps it as well when the chosen child's location name
is suspended, and its reset step resets the stored choice to `None` exactly
when the chosen child still exists among all children, is absent from the
filtered choices, and is not suspended. -/
theorem pick_choice_frame (m : RModule) (st : ModState)
    (use_randrange no_repeats : Bool) (suspended : List String)
    (randPick : List String → String) :
    (∀ ch, st.choice = some ch →
      odHasKey (get_choices m st no_repeats suspended) ch = true →
      ∃ r : PickResult,
        pick_choice m st use_randrange no_repeats suspended randPick =
          Except.ok r ∧ r.state.choice = some ch ∧
          r.state.history = st.history) ∧
    (∀ ch cc, st.choice = some ch →
      odFind (get_choices m st false []) ch = some cc →
      cc.location.name ∈ suspended →
      ∃ r : PickResult,
        pick_choice m st use_randrange no_repeats suspended randPick =
          Except.ok r ∧ r.state.choice = some ch ∧
          r.state.history = st.history) ∧
    (∀ ch, reset_choice (get_choices m st no_repeats suspended)
        (get_choices m st false []) (some ch) suspended = none ↔
      ∃ cc, odFind (get_choices m st false []) ch = some cc ∧
        odHasKey (get_choices m st no_repeats suspended) ch = false ∧
        cc.location.name ∉ suspended) := by
  refine ⟨?_, ?_, ?_⟩
  · intro ch hst hkey
    have hkmem : ch ∈ (get_choices m st no_repeats suspended).map Prod.fst := by
      simpa [odHasKey] using hkey
    have hkall : ch ∈ (get_choices m st false []).map Prod.fst :=
      keys_get_choices_sub_all m st st no_repeats suspended ch hkmem
    obtain ⟨cc, hfind⟩ := odFind_isSome_of_mem hkall
    refine ⟨⟨⟨some ch, st.history⟩, some cc, some cc⟩, ?_, rfl, rfl⟩
    simp only [pick_choice, hst]
    rw [reset_choice_has_key hfind hkey]
    simp only [hfind]
  · intro ch cc hst hfind hsusp
    refine ⟨⟨⟨some ch, st.history⟩, some cc, some cc⟩, ?_, rfl, rfl⟩
    simp only [pick_choice, hst]
    rw [reset_choice_suspended_mem hfind hsusp]
    simp only [hfind]
  · intro ch
    unfold reset_choice
    cases hfind : odFind (get_choices m st false []) ch with
    | none => simp [odGet, hfind]
    | some cc =>
      by_cases hkey : odHasKey (get_choices m st no_repeats suspended) ch = true
      · simp [odGet, hfind, hkey]
      · rw [Bool.not_eq_true] at hkey
        by_cases hsusp : cc.location.name ∈ suspended
        · simp [odGet, hfind, hkey, hsusp]
        · simp [odGet, hfind, hkey, hsusp]

/-- Witness for C4 at a concrete one-child module whose stored choice is
still among the filtered choices. -/
theorem pick_choice_frame_witness :
    ∃ r : PickResult,
      pick_choice ⟨[⟨⟨"u1", "n1"⟩⟩], some 0, false⟩ ⟨some "u1", []⟩
          false false [] (fun _ => "") = Except.ok r ∧
      r.state.choice = some "u1" ∧ r.state.history = [] :=
  (pick_choice_frame ⟨[⟨⟨"u1", "n1"⟩⟩], some 0, false⟩ ⟨some "u1", []⟩
    false false [] (fun _ => "")).1 "u1" rfl (by decide)

/-- C5: `get_choices` returns an ordered dictionary keyed by child location
urls mapping to the children; with no stored choice and `no_repeats` set it
excludes children whose url is in the history, a non-empty suspended list
excludes children whose name is suspended (the membership characterization),
and called with no arguments it returns all children in order. -/
theorem get_choices_spec (m : RModule) (st : ModState) (no_repeats : Bool)
    (suspended : List String) :
    (∀ k c, (k, c) ∈ get_choices m st no_repeats suspended →
      c ∈ m.children ∧ c.location.url = k) ∧
    (∀ k, k ∈ (get_choices m st no_repeats suspended).map Prod.fst ↔
      ∃ c, c ∈ m.children ∧ c.location.url = k ∧
        ((st.choice = none ∧ no_repeats = true) → c.location.url ∉ st.history) ∧
        (suspended ≠ [] → c.location.name ∉ suspended)) ∧
    ((m.children.map (fun c => c.location.url)).Nodup →
      get_choices m st false [] = m.children.map (fun c => (c.location.url, c))) := by
  refine ⟨?_, mem_keys_get_choices m st no_repeats suspended, ?_⟩
  · intro k c hkc
    simp only [get_choices] at hkc
    have h1 := odFromList_mem_sub hkc
    obtain ⟨c2, hc2, heq⟩ := List.mem_map.1 h1
    obtain ⟨hk, hc⟩ := Prod.mk.injEq .. ▸ heq
    subst hc
    refine ⟨?_, hk⟩
    split at hc2
    · have hc3 := (List.mem_filter.1 hc2).1
      split at hc3
      · exact (List.mem_filter.1 hc3).1
      · exact hc3
    · split at hc2
      · exact (List.mem_filter.1 hc2).1
      · exact hc2
  · intro hnd
    rw [get_choices_no_args]
    apply odFromList_of_nodup
    simpa [List.map_map, Function.comp] using hnd

/-- Witness for C5 at a concrete two-child module. -/
theorem get_choices_spec_witness :
    get_choices ⟨[⟨⟨"u1", "n1"⟩⟩, ⟨⟨"u2", "n2"⟩⟩], none, false⟩
        ⟨none, ["u1"]⟩ false [] =
      [("u1", ⟨⟨"u1", "n1"⟩⟩), ("u2", ⟨⟨"u2", "n2"⟩⟩)] :=
  (get_choices_spec ⟨[⟨⟨"u1", "n1"⟩⟩, ⟨⟨"u2", "n2"⟩⟩], none, false⟩
    ⟨none, ["u1"]⟩ false []).2.2 (by decide)

/-- The history component of `student_view`'s result. -/
theorem student_view_snd (c : Child) (history : List String) (staff : Bool)
    (rc : Child → String) (ctl : String) :
    (student_view (some c) history staff rc ctl).2 =
      if c.location.url ∈ history then history
      else history ++ [c.location.url] := by
  cases staff <;> simp [student_view]

/-- The history component of `pick_choice`'s result, also when it raised. -/
def pickFinalHistory (r : Except (String × ModState) PickResult) : List String :=
  match r with
  | Except.ok p => p.state.history
  | Except.error e => e.2.history

/-- C6: `student_view` appends the rendered child's url to the history only
when it is not already present, so a duplicate-free history stays
duplicate-free; and the other state-changing operations (`pick_choice`,
`handle_ajax`) never change the history. -/
theorem student_view_history :
    (∀ (c : Child) (history : List String) (staff : Bool)
        (rc : Child → String) (ctl : String),
      c.location.url ∈ history →
        (student_view (some c) history staff rc ctl).2 = history) ∧
    (∀ (c : Child) (history : List String) (staff : Bool)
        (rc : Child → String) (ctl : String),
      c.location.url ∉ history →
        (student_view (some c) history staff rc ctl).2 =
          history ++ [c.location.url]) ∧
    (∀ (child : Option Child) (history : List String) (staff : Bool)
        (rc : Child → String) (ctl : String),
      history.Nodup → ((student_view child history staff rc ctl).2).Nodup) ∧
    (∀ (m : RModule) (st : ModState) (ur nr : Bool) (susp : List String)
        (rp : List String → String),
      pickFinalHistory (pick_choice m st ur nr susp rp) = st.history) ∧
    (∀ (m : RModule) (st : ModState) (dispatch dataChoice : String)
        (st2 : ModState) (ret : String),
      handle_ajax m st dispatch dataChoice = Except.ok (st2, ret) →
        st2.history = st.history) := by
  refine ⟨?_, ?_, ?_, ?_, ?_⟩
  · intro c history staff rc ctl hmem
    rw [student_view_snd, if_pos hmem]
  · intro c history staff rc ctl hmem
    rw [student_view_snd, if_neg hmem]
  · intro child history staff rc ctl hnd
    cases child with
    | none => simpa [student_view] using hnd
    | some c =>
      rw [student_view_snd]
      split
      · exact hnd
      · rename_i hmem
        rw [List.nodup_append]
        refine ⟨hnd, List.nodup_singleton _, ?_⟩
        intro x hx hx1
        have hxe : x = c.location.url := by simpa using hx1
        exact hmem (hxe ▸ hx)
  · intro m st ur nr susp rp
    simp only [pick_choice]
    split
    · rfl
    · split <;> rfl
  · intro m st dispatch dataChoice st2 ret h
    simp only [handle_ajax] at h
    split at h
    · split at h
      · cases h
      · rw [Except.ok.injEq, Prod.mk.injEq] at h
        rw [← h.1]
    · rw [Except.ok.injEq, Prod.mk.injEq] at h
      rw [← h.1]

/-- Witness for C6: a fresh url is appended to the history exactly once. -/
theorem student_view_history_witness :
    (student_view (some ⟨⟨"u1", "n1"⟩⟩) ["u0"] false (fun _ => "html") "").2 =
      ["u0"] ++ ["u1"] :=
  student_view_history.2.1 ⟨⟨"u1", "n1"⟩⟩ ["u0"] false (fun _ => "html") ""
    (by decide)

/-- C7: with no filtered choices left and no stored choice, `pick_choice`
falls back to the last history entry as the stored choice; with an empty
history the choice stays `None`, `child_descriptor` and `child` are set to
`None`, `get_child_descriptors` returns the empty list, and `student_view`
renders the nothing-to-randomize fragment. -/
theorem pick_choice_no_choices (m : RModule) (st : ModState)
    (use_randrange no_repeats : Bool) (suspended : List String)
    (randPick : List String → String)
    (hempty : get_choices m st no_repeats suspended = [])
    (hchoice : st.choice = none) :
    pickFinalChoice
        (pick_choice m st use_randrange no_repeats suspended randPick) =
      st.history.getLast? ∧
    (st.history = [] →
      pick_choice m st use_randrange no_repeats suspended randPick =
        Except.ok ⟨⟨none, st.history⟩, none, none⟩ ∧
      get_child_descriptors none = [] ∧
      ∀ (staff : Bool) (rc : Child → String) (ctl : String),
        (student_view none st.history staff rc ctl).1 =
          "<div>Nothing to randomize between</div>") := by
  have hpick : pick_choice m st use_randrange no_repeats suspended randPick =
      match st.history.getLast? with
      | none => Except.ok ⟨⟨none, st.history⟩, none, none⟩
      | some ch =>
        match odFind (get_choices m st false []) ch with
        | some cd => Except.ok ⟨⟨some ch, st.history⟩, some cd, some cd⟩
        | none => Except.error ("self.get_children() returned 0 elements",
            ⟨some ch, st.history⟩) := by
    simp only [pick_choice, hchoice, reset_choice_of_none, hempty]
    simp
  constructor
  · rw [hpick]
    cases hl : st.history.getLast? with
    | none => simp [pickFinalChoice]
    | some ch =>
      cases hf : odFind (get_choices m st false []) ch <;>
        simp [pickFinalChoice, hf]
  · intro hh
    refine ⟨?_, rfl, fun staff rc ctl => rfl⟩
    rw [hpick, hh]
    simp

/-- Witness for C7 at a childless module with empty history. -/
theorem pick_choice_no_choices_witness :
    pickFinalChoice (pick_choice ⟨[], some 3, false⟩ ⟨none, []⟩ false false []
        (fun _ => "")) = ([] : List String).getLast? ∧
    pick_choice ⟨[], some 3, false⟩ ⟨none, []⟩ false false [] (fun _ => "") =
      Except.ok ⟨⟨none, []⟩, none, none⟩ := by
  have h := pick_choice_no_choices ⟨[], some 3, false⟩ ⟨none, []⟩ false false
    [] (fun _ => "") (by decide) rfl
  exact ⟨h.1, (h.2 rfl).1⟩

/-- C10 counterexample: for a staff user whose stored choice (`None`, module
without children) is not among the choice keys, `handle_ajax` propagates the
uncaught `ValueError` from `get_choice_index` instead of returning a JSON
object reporting the current choice. -/
theorem handle_ajax_counterexample :
    handle_ajax ⟨[], none, true⟩ ⟨none, []⟩ "next" "0" = Except.error () ∧
    ¬ ∃ p : ModState × String,
      handle_ajax ⟨[], none, true⟩ ⟨none, []⟩ "next" "0" = Except.ok p := by
  refine ⟨rfl, ?_⟩
  rintro ⟨p, hp⟩
  rw [show handle_ajax ⟨[], none, true⟩ ⟨none, []⟩ "next" "0" =
    Except.error () from rfl] at hp
  cases hp

/-- C10 (amended): provided the user is not staff, or the stored choice is a
key of the full choice dictionary (so that computing its index does not
raise), `handle_ajax` modifies the stored choice only when the user is staff
and either dispatch is `next` with a choice at the next index, or dispatch
is `jump` with `data['choice']` parsing to an in-range (Python semantics)
integer index; otherwise the stored choice is unchanged, and the returned
`ret` field reports the possibly updated current choice. -/
theorem handle_ajax_spec (m : RModule) (st : ModState)
    (dispatch dataChoice : String) :
    (m.userIsStaff = false →
      handle_ajax m st dispatch dataChoice =
        Except.ok (st, "choice=" ++ pyShowOptStr st.choice)) ∧
    (∀ ch, m.userIsStaff = true → st.choice = some ch →
      ch ∈ (get_choices m st false []).map Prod.fst →
      ∃ (idx : Nat) (st2 : ModState) (ret : String),
        get_choice_index st.choice ((get_choices m st false []).map Prod.fst) =
          Except.ok idx ∧
        handle_ajax m st dispatch dataChoice = Except.ok (st2, ret) ∧
        st2.history = st.history ∧
        ret = "choice=" ++ pyShowOptStr st2.choice ∧
        (st2.choice ≠ st.choice →
          (dispatch = "next" ∧
            ((get_choices m st false []).map Prod.fst).get? (idx + 1) =
              st2.choice) ∨
          (dispatch = "jump" ∧ ∃ i : Int,
            pyToInt dataChoice = some i ∧
            pyListGet ((get_choices m st false []).map Prod.fst) i =
              st2.choice)) ∧
        (dispatch ≠ "next" → dispatch ≠ "jump" → st2.choice = st.choice)) := by
  constructor
  · intro hstaff
    simp [handle_ajax, hstaff]
  · intro ch hstaff hch hmem
    have hidx : ∃ idx, (((get_choices m st false []).map Prod.fst).findIdx?
        (fun k => k == ch)) = some idx := by
      have hs : (((get_choices m st false []).map Prod.fst).findIdx?
          (fun k => k == ch)).isSome := by
        rw [List.findIdx?_isSome]
        refine List.any_eq_true.2 ⟨ch, hmem, by simp⟩
      exact Option.isSome_iff_exists.1 hs
    obtain ⟨idx, hidx⟩ := hidx
    have hgci : get_choice_index st.choice
        ((get_choices m st false []).map Prod.fst) = Except.ok idx := by
      rw [hch]
      simp [get_choice_index, hidx]
    by_cases hd1 : dispatch = "next"
    · cases hnext : ((get_choices m st false []).map Prod.fst).get? (idx + 1)
        with
      | none =>
        have hnext2 : Option.map Prod.fst ((get_choices m st false [])[idx + 1]?)
            = none := by
          rw [← List.getElem?_map, ← List.get?_eq_getElem?]
          exact hnext
        refine ⟨idx, ⟨st.choice, st.history⟩, _, hgci, ?_, rfl, rfl, ?_, ?_⟩
        · simp only [handle_ajax, hstaff, if_true]
          rw [hgci]
          simp [hd1, hnext2]
        · intro hne
          exact absurd rfl hne
        · intro h1 _
          exact absurd hd1 h1
      | some k =>
        have hnext2 : Option.map Prod.fst ((get_choices m st false [])[idx + 1]?)
            = some k := by
          rw [← List.getElem?_map, ← List.get?_eq_getElem?]
          exact hnext
        refine ⟨idx, ⟨some k, st.history⟩, _, hgci, ?_, rfl, rfl, ?_, ?_⟩
        · simp only [handle_ajax, hstaff, if_true]
          rw [hgci]
          simp [hd1, hnext2]
        · intro _
          exact Or.inl ⟨hd1, hnext⟩
        · intro h1 _
          exact absurd hd1 h1
    · by_cases hd2 : dispatch = "jump"
      · cases hpi : pyToInt dataChoice with
        | none =>
          refine ⟨idx, ⟨st.choice, st.history⟩, _, hgci, ?_, rfl, rfl, ?_, ?_⟩
          · simp only [handle_ajax, hstaff, if_true]
            rw [hgci]
            simp [hd1, hd2, hpi]
          · intro hne
            exact absurd rfl hne
          · intro _ h2
            exact absurd hd2 h2
        | some i =>
          cases hpg : pyListGet ((get_choices m st false []).map Prod.fst) i
            with
          | none =>
            refine ⟨idx, ⟨st.choice, st.history⟩, _, hgci, ?_, rfl, rfl, ?_,
              ?_⟩
            · simp only [handle_ajax, hstaff, if_true]
              rw [hgci]
              simp [hd1, hd2, hpi, hpg]
            · intro hne
              exact absurd rfl hne
            · intro _ h2
              exact absurd hd2 h2
          | some k =>
            refine ⟨idx, ⟨some k, st.history⟩, _, hgci, ?_, rfl, rfl, ?_, ?_⟩
            · simp only [handle_ajax, hstaff, if_true]
              rw [hgci]
              simp [hd1, hd2, hpi, hpg]
            · intro _
              refine Or.inr ⟨hd2, ⟨i, rfl, ?_⟩⟩
              exact hpg
            · intro _ h2
              exact absurd hd2 h2
      · refine ⟨idx, ⟨st.choice, st.history⟩, _, hgci, ?_, rfl, rfl, ?_, ?_⟩
        · simp only [handle_ajax, hstaff, if_true]
          rw [hgci]
          simp [hd1, hd2]
        · intro hne
          exact absurd rfl hne
        · intro _ _
          rfl

/-- Witness for C10 (amended) at a concrete staff module whose stored choice
is the first of two children, with dispatch `next`. -/
theorem handle_ajax_spec_witness :
    ∃ (idx : Nat) (st2 : ModState) (ret : String),
      get_choice_index (some "u1")
        ((get_choices ⟨[⟨⟨"u1", "n1"⟩⟩, ⟨⟨"u2", "n2"⟩⟩], none, true⟩
          ⟨some "u1", []⟩ false []).map Prod.fst) = Except.ok idx ∧
      handle_ajax ⟨[⟨⟨"u1", "n1"⟩⟩, ⟨⟨"u2", "n2"⟩⟩], none, true⟩
        ⟨some "u1", []⟩ "next" "" = Except.ok (st2, ret) ∧
      st2.history = [] ∧
      ret = "choice=" ++ pyShowOptStr st2.choice ∧
      (st2.choice ≠ some "u1" →
        (("next" : String) = "next" ∧
          ((get_choices ⟨[⟨⟨"u1", "n1"⟩⟩, ⟨⟨"u2", "n2"⟩⟩], none, true⟩
            ⟨some "u1", []⟩ false []).map Prod.fst).get? (idx + 1) =
            st2.choice) ∨
        (("next" : String) = "jump" ∧ ∃ i : Int,
          pyToInt "" = some i ∧
          pyListGet ((get_choices ⟨[⟨⟨"u1", "n1"⟩⟩, ⟨⟨"u2", "n2"⟩⟩], none,
            true⟩ ⟨some "u1", []⟩ false []).map Prod.fst) i = st2.choice)) ∧
      (("next" : String) ≠ "next" → ("next" : String) ≠ "jump" →
        st2.choice = some "u1") :=
  (handle_ajax_spec ⟨[⟨⟨"u1", "n1"⟩⟩, ⟨⟨"u2", "n2"⟩⟩], none, true⟩
    ⟨some "u1", []⟩ "next" "").2 "u1" rfl rfl (by decide)

/- ### Lemmas about `coerce_types` -/

theorem pyUnicode_VStr (s : String) : pyUnicode (Value.VStr s) = s := by
  simp [pyUnicode]

/-- C9: `coerce_types` is total and keeps primitive neo4j values (integer,
string/unicode, float, bool) unchanged, rebuilds iterable values (tuple,
list, set, frozenset) with every element converted to unicode (sets dedup as
`type(value)(...)` does), converts any other value to `unicode(value)`, and
is idempotent. -/
theorem coerce_types_spec :
    (∀ i, coerce_types (Value.VInt i) = Value.VInt i) ∧
    (∀ s, coerce_types (Value.VStr s) = Value.VStr s) ∧
    (∀ f, coerce_types (Value.VFloat f) = Value.VFloat f) ∧
    (∀ b, coerce_types (Value.VBool b) = Value.VBool b) ∧
    (∀ l, coerce_types (Value.VTuple l) =
      Value.VTuple (l.map (fun e => Value.VStr (pyUnicode e)))) ∧
    (∀ l, coerce_types (Value.VList l) =
      Value.VList (l.map (fun e => Value.VStr (pyUnicode e)))) ∧
    (∀ l, coerce_types (Value.VSet l) =
      Value.VSet (((l.map pyUnicode).dedup).map Value.VStr)) ∧
    (∀ l, coerce_types (Value.VFrozenset l) =
      Value.VFrozenset (((l.map pyUnicode).dedup).map Value.VStr)) ∧
    (∀ s, coerce_types (Value.VOther s) =
      Value.VStr (pyUnicode (Value.VOther s))) ∧
    (∀ v, coerce_types (coerce_types v) = coerce_types v) := by
  refine ⟨fun i => rfl, fun s => rfl, fun f => rfl, fun b => rfl, fun l => rfl,
    fun l => rfl, fun l => rfl, fun l => rfl, fun s => rfl, ?_⟩
  intro v
  cases v with
  | VInt i => rfl
  | VStr s => rfl
  | VFloat f => rfl
  | VBool b => rfl
  | VOther s => simp [coerce_types, pyUnicode]
  | VTuple l =>
    simp [coerce_types, List.map_map, Function.comp, pyUnicode_VStr]
  | VList l =>
    simp [coerce_types, List.map_map, Function.comp, pyUnicode_VStr]
  | VSet l =>
    have hcomp : pyUnicode ∘ Value.VStr = id := funext pyUnicode_VStr
    simp [coerce_types, List.map_map, hcomp, List.dedup_idem]
  | VFrozenset l =>
    have hcomp : pyUnicode ∘ Value.VStr = id := funext pyUnicode_VStr
    simp [coerce_types, List.map_map, hcomp, List.dedup_idem]

/- ### Lemmas about `serialize_course` -/

theorem serialize_course_fold (items : List Item) :
    ∀ (ns : List GNode) (mp : List (String × GNode)),
      items.foldl (fun acc item =>
          (acc.1 ++ [mkNode item], odInsert acc.2 item.location (mkNode item)))
        (ns, mp) =
      (ns ++ items.map mkNode,
        items.foldl (fun m it => odInsert m it.location (mkNode it)) mp) := by
  induction items with
  | nil => intro ns mp; simp
  | cons it rest ih =>
    intro ns mp
    rw [List.foldl_cons, ih]
    simp

theorem locmap_eq (items : List Item)
    (hnd : (items.map (fun it => it.location)).Nodup) :
    items.foldl (fun m it => odInsert m it.location (mkNode it)) [] =
      items.map (fun it => (it.location, mkNode it)) := by
  have h1 : items.foldl (fun m it => odInsert m it.location (mkNode it)) [] =
      odFromList (items.map (fun it => (it.location, mkNode it))) := by
    rw [odFromList, List.foldl_map]
  rw [h1]
  apply odFromList_of_nodup
  simpa [List.map_map, Function.comp] using hnd

theorem odFind_map_items (items : List Item) (loc : String) :
    odFind (items.map (fun it => (it.location, mkNode it))) loc =
      findNode items loc := by
  unfold odFind findNode
  rw [List.find?_map, Option.map_map]
  rfl

theorem find?_location_self (items : List Item) (it : Item)
    (hnd : (items.map (fun x => x.location)).Nodup) (hmem : it ∈ items) :
    items.find? (fun x => decide (x.location = it.location)) = some it := by
  induction items with
  | nil => cases hmem
  | cons a rest ih =>
    rw [List.map_cons, List.nodup_cons] at hnd
    rcases List.mem_cons.1 hmem with rfl | hmem2
    · simp [List.find?_cons]
    · have hne : ¬ (a.location = it.location) := by
        intro he
        exact hnd.1 (he ▸ List.mem_map.2 ⟨it, hmem2, rfl⟩)
      have hd : decide (a.location = it.location) = false := by
        simpa using hne
      rw [List.find?_cons, hd]
      exact ih hnd.2 hmem2

theorem findNode_self (items : List Item) (it : Item)
    (hnd : (items.map (fun x => x.location)).Nodup) (hmem : it ∈ items) :
    findNode items it.location = some (mkNode it) := by
  unfold findNode
  rw [find?_location_self items it hnd hmem]
  rfl

theorem foldl_append_flatMap {β γ : Type} (l : List β) (f : β → List γ) :
    ∀ acc : List γ, l.foldl (fun a it => a ++ f it) acc = acc ++ l.flatMap f := by
  induction l with
  | nil => intro acc; simp
  | cons b rest ih =>
    intro acc
    rw [List.foldl_cons, ih]
    simp

/-- C3: `serialize_course` produces exactly one node per modulestore item
(labelled with the item's block type and carrying its coerced field values),
and exactly one `PARENT_OF` relationship per parent-child pair whose child
location was serialized (children with unserialized locations produce no
relationship); nothing else is produced. -/
theorem serialize_course_spec (items : List Item)
    (hnd : (items.map (fun it => it.location)).Nodup) :
    (serialize_course items).1 = items.map mkNode ∧
    (serialize_course items).1.length = items.length ∧
    (∀ it : Item, mkNode it = ⟨(serialize_item it).2,
        (serialize_item it).1.map (fun p => (p.1, coerce_types p.2))⟩ ∧
      (serialize_item it).2 = it.block_type) ∧
    (serialize_course items).2 = items.flatMap (fun it =>
      it.childLocs.filterMap (fun cl =>
        (findNode items cl).map
          (fun cn => (⟨mkNode it, "PARENT_OF", cn⟩ : GRel)))) := by
  have hbuilt : (serialize_course items).1 = items.map mkNode ∧
      (serialize_course items).2 = items.flatMap (fun it =>
        it.childLocs.filterMap (fun cl =>
          (findNode items cl).map
            (fun cn => (⟨mkNode it, "PARENT_OF", cn⟩ : GRel)))) := by
    simp only [serialize_course]
    rw [serialize_course_fold items [] []]
    refine ⟨by simp, ?_⟩
    simp only [List.nil_append]
    rw [locmap_eq items hnd]
    rw [foldl_append_flatMap items
      (fun item => item.childLocs.filterMap (fun child_loc =>
        match odFind (items.map (fun it => (it.location, mkNode it)))
            item.location,
          odFind (items.map (fun it => (it.location, mkNode it))) child_loc
          with
        | some parent_node, some child_node =>
          some (GRel.mk parent_node "PARENT_OF" child_node)
        | _, _ => none)) []]
    rw [List.nil_append]
    have hcongr : ∀ F G : Item → List GRel, (∀ x ∈ items, F x = G x) →
        items.flatMap F = items.flatMap G := by
      intro F G h
      simp only [List.flatMap]
      rw [List.map_congr_left h]
    apply hcongr
    intro it hit
    have hpar : odFind (items.map (fun x => (x.location, mkNode x)))
        it.location = some (mkNode it) := by
      rw [odFind_map_items]
      exact findNode_self items it hnd hit
    apply List.filterMap_congr
    intro cl _
    rw [hpar, odFind_map_items]
    cases findNode items cl <;> rfl
  exact ⟨hbuilt.1, by rw [hbuilt.1]; simp, fun it => ⟨rfl, by simp [serialize_item]⟩,
    hbuilt.2⟩

/-- Witness for C3 at a concrete two-item course (a course item and its
child problem). -/
theorem serialize_course_spec_witness :
    (serialize_course [⟨[], "", "", "o", "c", "r", "ck", "course", "locC",
        ["locP"]⟩, ⟨[], "", "", "o", "c", "r", "ck", "problem", "locP", []⟩]).1
      = [mkNode ⟨[], "", "", "o", "c", "r", "ck", "course", "locC", ["locP"]⟩,
        mkNode ⟨[], "", "", "o", "c", "r", "ck", "problem", "locP", []⟩] ∧
    (serialize_course [⟨[], "", "", "o", "c", "r", "ck", "course", "locC",
        ["locP"]⟩, ⟨[], "", "", "o", "c", "r", "ck", "problem", "locP", []⟩]).2
      = [⟨mkNode ⟨[], "", "", "o", "c", "r", "ck", "course", "locC",
          ["locP"]⟩, "PARENT_OF",
        mkNode ⟨[], "", "", "o", "c", "r", "ck", "problem", "locP", []⟩⟩] := by
  have h := serialize_course_spec [⟨[], "", "", "o", "c", "r", "ck", "course",
    "locC", ["locP"]⟩, ⟨[], "", "", "o", "c", "r", "ck", "problem", "locP",
    []⟩] (by decide)
  refine ⟨h.1, ?_⟩
  rw [h.2.2.2]
  rfl

/- ### Lemmas about the transactional write loop -/

theorem add_to_transaction_none_iff (entities : List Entity)
    (f : Entity → Bool) :
    ∀ tx, (add_to_transaction entities f tx = none ↔
      ∃ e ∈ entities, f e = true) := by
  induction entities with
  | nil => intro tx; simp [add_to_transaction]
  | cons e rest ih =>
    intro tx
    by_cases hf : f e = true
    · simp only [add_to_transaction, hf, if_true]
      constructor
      · intro _
        exact ⟨e, by simp, hf⟩
      · intro _
        trivial
    · rw [Bool.not_eq_true] at hf
      simp only [add_to_transaction, hf, Bool.false_eq_true, if_false]
      rw [ih (tx ++ [e])]
      constructor
      · rintro ⟨e2, he2, hfe2⟩
        exact ⟨e2, List.mem_cons_of_mem _ he2, hfe2⟩
      · rintro ⟨e2, he2, hfe2⟩
        rcases List.mem_cons.1 he2 with rfl | he3
        · rw [hf] at hfe2
          cases hfe2
        · exact ⟨e2, he3, hfe2⟩

theorem add_to_transaction_ok (entities : List Entity) (f : Entity → Bool)
    (h : ∀ e ∈ entities, f e = false) :
    ∀ tx, add_to_transaction entities f tx = some (tx ++ entities) := by
  induction entities with
  | nil => intro tx; simp [add_to_transaction]
  | cons e rest ih =>
    intro tx
    have hfe : f e = false := h e (by simp)
    simp only [add_to_transaction, hfe, Bool.false_eq_true, if_false]
    rw [ih (fun e2 he2 => h e2 (List.mem_cons_of_mem _ he2)) (tx ++ [e])]
    simp

theorem add_to_transaction_some (entities : List Entity) (f : Entity → Bool) :
    ∀ tx tx2, add_to_transaction entities f tx = some tx2 →
      tx2 = tx ++ entities ∧ ∀ e ∈ entities, f e = false := by
  induction entities with
  | nil =>
    intro tx tx2 h
    simp [add_to_transaction] at h
    simp [h.symm]
  | cons e rest ih =>
    intro tx tx2 h
    by_cases hf : f e = true
    · simp [add_to_transaction, hf] at h
    · rw [Bool.not_eq_true] at hf
      simp only [add_to_transaction, hf, Bool.false_eq_true, if_false] at h
      obtain ⟨h1, h2⟩ := ih (tx ++ [e]) tx2 h
      refine ⟨by simp [h1], ?_⟩
      intro e2 he2
      rcases List.mem_cons.1 he2 with rfl | he3
      · exact hf
      · exact h2 e2 he3

/-- C2: in `Command.handle` each course's nodes and relationships go through
one transaction: a raise from any entity creation or from the commit rolls
back, leaving the graph for that course unchanged, a clean run appends
exactly the course's entities, and the loop then continues with the next
course either way. -/
theorem handle_transaction_per_course :
    (∀ (graph : List Entity) (items : List Item) (f : Entity → Bool)
        (commitOk : Bool),
      ((∃ e ∈ courseEntities items, f e = true) ∨ commitOk = false →
        writeCourse graph items f commitOk = graph) ∧
      ((∀ e ∈ courseEntities items, f e = false) → commitOk = true →
        writeCourse graph items f commitOk = graph ++ courseEntities items) ∧
      (writeCourse graph items f commitOk = graph ∨
        writeCourse graph items f commitOk = graph ++ courseEntities items)) ∧
    (∀ (graph : List Entity) (c : List Item) (rest : List (List Item))
        (F : Nat → (Entity → Bool) × Bool) (i : Nat),
      handleLoop graph (c :: rest) F i =
        handleLoop (writeCourse graph c (F i).1 (F i).2) rest F (i + 1)) ∧
    (∀ (courses : List (List Item)) (F : Nat → (Entity → Bool) × Bool),
      handle courses F = handleLoop [] courses F 0) := by
  refine ⟨?_, fun graph c rest F i => rfl, fun courses F => rfl⟩
  intro graph items f commitOk
  cases hadd1 : add_to_transaction
      ((serialize_course items).1.map Entity.node) f [] with
  | none =>
    have hw : writeCourse graph items f commitOk = graph := by
      simp [writeCourse, hadd1]
    have hex : ∃ e ∈ courseEntities items, f e = true := by
      obtain ⟨e, he, hfe⟩ := (add_to_transaction_none_iff _ f []).1 hadd1
      exact ⟨e, by simp [courseEntities, he], hfe⟩
    refine ⟨fun _ => hw, ?_, Or.inl hw⟩
    intro hall _
    obtain ⟨e, he, hfe⟩ := hex
    rw [hall e he] at hfe
    cases hfe
  | some tx1 =>
    obtain ⟨htx1, hok1⟩ := add_to_transaction_some _ f [] tx1 hadd1
    cases hadd2 : add_to_transaction
        ((serialize_course items).2.map Entity.rel) f tx1 with
    | none =>
      have hw : writeCourse graph items f commitOk = graph := by
        simp [writeCourse, hadd1, hadd2]
      have hex : ∃ e ∈ courseEntities items, f e = true := by
        obtain ⟨e, he, hfe⟩ := (add_to_transaction_none_iff _ f tx1).1 hadd2
        exact ⟨e, by simp [courseEntities, he], hfe⟩
      refine ⟨fun _ => hw, ?_, Or.inl hw⟩
      intro hall _
      obtain ⟨e, he, hfe⟩ := hex
      rw [hall e he] at hfe
      cases hfe
    | some tx2 =>
      obtain ⟨htx2, hok2⟩ := add_to_transaction_some _ f tx1 tx2 hadd2
      have htx : tx2 = courseEntities items := by
        rw [htx2, htx1]
        simp [courseEntities]
      cases hcommit : commitOk with
      | false =>
        have hw : writeCourse graph items f false = graph := by
          simp [writeCourse, hadd1, hadd2]
        refine ⟨fun _ => hw, ?_, Or.inl hw⟩
        intro _ hco
        cases hco
      | true =>
        have hw : writeCourse graph items f true =
            graph ++ courseEntities items := by
          simp [writeCourse, hadd1, hadd2, htx]
        refine ⟨?_, fun _ _ => hw, Or.inr hw⟩
        rintro (⟨e, he, hfe⟩ | hco)
        · simp only [courseEntities] at he
          have hfalse : f e = false := by
            rcases List.mem_append.1 he with h1 | h1
            · exact hok1 e h1
            · exact hok2 e h1
          rw [hfalse] at hfe
          cases hfe
        · cases hco

/-- Witness for C2: a clean one-item course is appended whole. -/
theorem handle_transaction_per_course_witness :
    writeCourse [] [⟨[], "", "", "o", "c", "r", "ck", "problem", "locP", []⟩]
        (fun _ => false) true =
      [] ++ courseEntities
        [⟨[], "", "", "o", "c", "r", "ck", "problem", "locP", []⟩] :=
  ((handle_transaction_per_course.1 []
    [⟨[], "", "", "o", "c", "r", "ck", "problem", "locP", []⟩]
    (fun _ => false) true).2.1 (fun _ _ => rfl) rfl)

/- ### Lemmas about the operation trace -/

theorem createOps_no_deleteAll (entities : List Entity) (f : Entity → Bool) :
    Op.deleteAll ∉ (createOps entities f).1 := by
  induction entities with
  | nil => simp [createOps]
  | cons e rest ih =>
    by_cases hf : f e = true
    · simp [createOps, hf]
    · rw [Bool.not_eq_true] at hf
      simp [createOps, hf, ih]

theorem courseOps_no_deleteAll (items : List Item) (f : Entity → Bool)
    (commitOk : Bool) : Op.deleteAll ∉ courseOps items f commitOk := by
  unfold courseOps
  by_cases h1 : (createOps ((serialize_course items).1.map Entity.node) f).2
      = false
  · simp [h1, createOps_no_deleteAll]
  · by_cases h2 : (createOps ((serialize_course items).2.map Entity.rel) f).2
        = false
    · simp [h1, h2, createOps_no_deleteAll]
    · cases commitOk <;> simp [h1, h2, createOps_no_deleteAll]

theorem handleOpsLoop_no_deleteAll (courses : List (List Item))
    (F : Nat → (Entity → Bool) × Bool) :
    ∀ i, Op.deleteAll ∉ handleOpsLoop courses F i := by
  induction courses with
  | nil => intro i; simp [handleOpsLoop]
  | cons c rest ih =>
    intro i
    simp only [handleOpsLoop, List.mem_append]
    rintro (h | h)
    · exact courseOps_no_deleteAll c (F i).1 (F i).2 h
    · exact ih (i + 1) h

/-- C8: `Command.handle` deletes all existing graph data exactly once, as
its very first operation against the graph, before any course is processed;
in particular every create operation comes strictly after the deletion. -/
theorem handle_deleteAll_first (courses : List (List Item))
    (F : Nat → (Entity → Bool) × Bool) :
    handleOps courses F = Op.deleteAll :: handleOpsLoop courses F 0 ∧
    Op.deleteAll ∉ handleOpsLoop courses F 0 ∧
    (∀ (i : Nat) (e : Entity),
      (handleOps courses F).get? i = some (Op.create e) →
      ∃ j, j < i ∧ (handleOps courses F).get? j = some Op.deleteAll) := by
  refine ⟨rfl, handleOpsLoop_no_deleteAll courses F 0, ?_⟩
  intro i e hget
  cases i with
  | zero =>
    rw [show (handleOps courses F).get? 0 = some Op.deleteAll from rfl] at hget
    cases hget
  | succ n =>
    exact ⟨0, Nat.succ_pos n, rfl⟩

/-- Witness for C8 at a concrete one-course, one-item run: the create at
index 2 of the trace is preceded by the deletion at index 0. -/
theorem handle_deleteAll_first_witness :
    ∃ j, j < 2 ∧
      (handleOps [[⟨[], "", "", "o", "c", "r", "ck", "problem", "locP", []⟩]]
        (fun _ => (fun _ => false, true))).get? j = some Op.deleteAll :=
  (handle_deleteAll_first
    [[⟨[], "", "", "o", "c", "r", "ck", "problem", "locP", []⟩]]
    (fun _ => (fun _ => false, true))).2.2 2
    (Entity.node (mkNode ⟨[], "", "", "o", "c", "r", "ck", "problem", "locP",
      []⟩)) rfl
